import Mathlib

/-!
The codeflow program: the progressive-reveal engine of `cmd/main/main.go`

A shallow embedding of the Bubble Tea model of `main.go` (`tickCmd`, `cursorCmd`,
`model.Init`, `model.Update`, `model.View`) and the properties of its reveal state
machine.

Conventions of the embedding.

* A Go `string` is a sequence of bytes (`GoString`); `len` is `List.length`.
* A Go `int` is an `Int`.  The only increment, `m.currentIndex++`, runs under the guard
  `m.currentIndex < len(m.content)`, and the length of a Go string fits an `int`, so the
  increment cannot wrap; it is embedded as `+ 1`.
* A run-time panic (index out of range, integer division by zero) is the result `none`.
* `m.displayBuffer` is a `*strings.Builder`; the embedding stores the text accumulated in
  the builder it points to.  `WriteByte` appends one byte to it.
* The packages the program calls but does not define (`bubbles/progress`, `chroma`,
  `lipgloss`) are a parameter `X : Libs`; every theorem holds for all of them.
* A `tea.Cmd` is embedded as the description of what it asks the runtime to do.
-/

namespace Codeflow

/-- One byte of a Go string. -/
abbrev Byte := Fin 256

/-- A Go `string`: an immutable sequence of bytes. -/
abbrev GoString := List Byte

/-- Go indexing `s[i]` on a string with an `int` index: panics outside `0 ≤ i < len(s)`. -/
def index (s : GoString) (i : Int) : Option Byte :=
  if 0 ≤ i then s.get? i.toNat else none

/-- The source's `type mode int`. -/
abbrev mode := Int

/-- The constant `displayMode mode = iota`. -/
def displayMode : mode := 0

/-- The constant `typingMode`, the second of the `iota` block. -/
def typingMode : mode := 1

/-- The packages used by `main.go` whose code is outside the repository. -/
structure Libs where
  /-- The type `progress.Model`. -/
  Progress : Type
  /-- The `tea.Cmd` values built inside the progress package. -/
  LibCmd : Type
  /-- The type `progress.FrameMsg`. -/
  FrameMsg : Type
  /-- The type `chroma.Lexer`. -/
  Lexer : Type
  /-- The type `chroma.Formatter`. -/
  Formatter : Type
  /-- The type `*chroma.Style`. -/
  Style : Type
  /-- The type `chroma.Iterator`. -/
  Iterator : Type
  /-- The value `progress.New(progress.WithDefaultGradient())`. -/
  New : Progress
  /-- The call `(*progress.Model).SetPercent(float64(num) / float64(den))`: the operands of the
  floating-point quotient are handed over as they are; the result is the updated progress
  model and the returned command. -/
  SetPercent : Progress → Int → Int → Progress × LibCmd
  /-- The call `progress.Model.Update(msg)` on a `progress.FrameMsg`. -/
  ProgressUpdate : Progress → FrameMsg → Progress × LibCmd
  /-- The call `progress.Model.View()`. -/
  ProgressView : Progress → GoString
  /-- The call `lexer.Tokenise(nil, text)`: an iterator, or an error given by its `%v`
  rendering. -/
  Tokenise : Lexer → GoString → Except GoString Iterator
  /-- The call `formatter.Format(w, style, iterator)`: the bytes written to `w`. -/
  Format : Formatter → Style → Iterator → GoString
  /-- The call `helpStyle.Render(text)`. -/
  Render : GoString → GoString

/-- The message a timer command delivers when it fires. -/
inductive TimerMsg
  | tickMsg
  | cursorTick
  deriving DecidableEq, Repr

/-- The value of a `tea.Cmd`. -/
inductive Cmd (X : Libs)
  /-- The `nil` command. -/
  | nil
  /-- The command `tea.Quit`. -/
  | Quit
  /-- The command `tea.Tick(d, fn)` with `d` in nanoseconds and `fn` returning `fires`. -/
  | Tick (d : Int) (fires : TimerMsg)
  /-- A command returned by the progress package. -/
  | lib (c : X.LibCmd)
  /-- The command `tea.Batch(a, b)`. -/
  | Batch (a b : Cmd X)

/-- The constant `time.Millisecond`, in nanoseconds. -/
def Millisecond : Int := 1000000

/-- The key types `Update` tells apart: `tea.KeyCtrlC`, `tea.KeyEsc`, and every other one. -/
inductive KeyType
  | KeyCtrlC
  | KeyEsc
  | other (code : Int)
  deriving DecidableEq, Repr

/-- The `tea.Msg` values by the cases of the type switch in `Update`. -/
inductive Msg (X : Libs)
  /-- A `tea.KeyMsg` with its `Type` field. -/
  | KeyMsg (typ : KeyType)
  /-- The source's `tickMsg`. -/
  | tickMsg
  /-- The source's `cursorTick`. -/
  | cursorTick
  /-- A `progress.FrameMsg`. -/
  | FrameMsg (f : X.FrameMsg)
  /-- A message of any other type. -/
  | other

/-- The source's `tickCmd(user_speed)`; Go's `/` on `int` truncates and panics on zero. -/
def tickCmd {X : Libs} (user_speed : Int) : Option (Cmd X) :=
  let base_speed : Int := 1000
  if user_speed = 0 then Option.none
  else
    let effective_speed := Int.tdiv base_speed user_speed
    let effective_speed := if effective_speed < 1 then 1 else effective_speed
    some (.Tick (Millisecond * effective_speed) .tickMsg)

/-- The source's `cursorCmd(num)`. -/
def cursorCmd {X : Libs} (num : Int) : Cmd X :=
  .Tick (Millisecond * num) .cursorTick

/-- The source's `type model struct`. -/
structure model (X : Libs) where
  content : GoString
  currentIndex : Int
  displayBuffer : GoString
  lexer : X.Lexer
  formatter : X.Formatter
  style : X.Style
  done : Bool
  cursorVisible : Bool
  progress : X.Progress
  mode : mode
  user_speed : Int

/-- The source's `model.Init`. -/
def model.Init {X : Libs} (m : model X) : Option (Cmd X) := do
  let t ← tickCmd m.user_speed
  pure (.Batch t (cursorCmd 250))

/-- The two statements `m.displayBuffer.WriteByte(m.content[m.currentIndex])` and
`m.currentIndex++`. -/
def model.advance {X : Libs} (m : model X) : Option (model X) := do
  let b ← index m.content m.currentIndex
  pure { m with displayBuffer := m.displayBuffer ++ [b], currentIndex := m.currentIndex + 1 }

/-- The statement `cmd := m.progress.SetPercent(float64(m.currentIndex) /
float64(len(m.content)))`, which updates `m.progress` in place. -/
def model.setPercent {X : Libs} (m : model X) : model X × X.LibCmd :=
  let r := X.SetPercent m.progress m.currentIndex m.content.length
  ({ m with progress := r.1 }, r.2)

/-- The source's `model.Update`. -/
def model.Update {X : Libs} (m : model X) : Msg X → Option (model X × Cmd X)
  | .KeyMsg typ =>
    if typ = .KeyCtrlC ∨ typ = .KeyEsc then some (m, .Quit)
    else if m.mode = typingMode then
      if m.currentIndex ≥ m.content.length then some ({ m with done := true }, .nil)
      else do
        let m ← if m.currentIndex < m.content.length then m.advance else pure m
        let r := m.setPercent
        pure (r.1, .lib r.2)
    else some (m, .nil)
  | .tickMsg =>
    if m.mode = typingMode then some (m, .nil)
    else if m.currentIndex ≥ m.content.length then some ({ m with done := true }, .nil)
    else do
      let m ← m.advance
      let r := m.setPercent
      let t ← tickCmd m.user_speed
      pure (r.1, .Batch t (.lib r.2))
  | .cursorTick =>
    let m := { m with cursorVisible := !m.cursorVisible }
    let numtick : Int := if m.mode = displayMode then 250 else 500
    some (m, cursorCmd numtick)
  | .FrameMsg f =>
    let r := X.ProgressUpdate m.progress f
    some ({ m with progress := r.1 }, .lib r.2)
  | .other => some (m, .nil)

/-- The model value `main` builds for a session. -/
def initModel {X : Libs} (content : GoString) (lexer : X.Lexer) (formatter : X.Formatter)
    (style : X.Style) (md : mode) (speed : Int) : model X :=
  { content := content
    lexer := lexer
    formatter := formatter
    style := style
    currentIndex := 0
    displayBuffer := []
    done := false
    cursorVisible := true
    progress := X.New
    mode := md
    user_speed := speed }

/-- The models after the runtime has delivered the messages of a list, one `Update` each. -/
def run {X : Libs} (m : model X) : List (Msg X) → Option (model X)
  | [] => some m
  | e :: es =>
    match m.Update e with
    | Option.none => Option.none
    | some r => run r.1 es

/-- The source's `strings.Split(s, "\n")`: the pieces of `s` between line feeds. -/
def splitLines : GoString → List GoString
  | [] => [[]]
  | b :: bs =>
    if b = 10 then [] :: splitLines bs
    else
      match splitLines bs with
      | [] => [[b]]
      | l :: ls => (b :: l) :: ls

/-- The windowing statements of `View`: `start := 0`, `if len(lines) > maxVisibleLines
{ start = len(lines) - maxVisibleLines }`, `visibleLines := lines[start:]`. -/
def visibleLines (maxVisibleLines : Nat) (lines : List GoString) : List GoString :=
  let start := if lines.length > maxVisibleLines then lines.length - maxVisibleLines else 0
  lines.drop start

/-- The constant `tabDown` of `View`. -/
def tabDown : Nat := 4

/-- The constant `tabIn` of `View`. -/
def tabIn : Nat := 3

/-- The constant `bottomPadding` of `View`. -/
def bottomPadding : Nat := 2

/-- The text written to `output` in `View`: the top padding, every visible line between
its tabs and a line feed, the bottom padding. -/
def padLines (visible : List GoString) : GoString :=
  List.replicate tabDown 10
    ++ (visible.map fun line => List.replicate tabIn 9 ++ line ++ [10]).flatten
    ++ List.replicate bottomPadding 10

/-- The cursor glyph `"█"` (U+2588) in UTF-8. -/
def cursor : GoString := [226, 150, 136]

/-- The help text `"\n • Esc: exit\n"` in UTF-8. -/
def helpText : GoString :=
  [10, 32, 226, 128, 162, 32, 69, 115, 99, 58, 32, 101, 120, 105, 116, 10]

/-- The result of `fmt.Sprintf("Error: %v", err)`. -/
def errorText (err : GoString) : GoString :=
  [69, 114, 114, 111, 114, 58, 32] ++ err

/-- The constant `maxVisibleLines` of the two branches of `View`. -/
def maxVisibleLines (md : mode) : Nat :=
  if md = typingMode then 35 else 30

/-- The lines `View` splits: the highlighted text, with the cursor glyph when visible. -/
def composedLines {X : Libs} (m : model X) (iterator : X.Iterator) : List GoString :=
  let highlightedContent := X.Format m.formatter m.style iterator
  let highlightedContent :=
    if m.cursorVisible then highlightedContent ++ cursor else highlightedContent
  splitLines highlightedContent

/-- The source's `model.View`. -/
def model.View {X : Libs} (m : model X) : GoString :=
  if m.mode = typingMode then
    let bufferContent := m.displayBuffer
    match X.Tokenise m.lexer bufferContent with
    | .error err => errorText err
    | .ok iterator =>
      let lines := composedLines m iterator
      let visible := visibleLines 35 lines
      X.ProgressView m.progress ++ X.Render helpText ++ padLines visible
  else
    let bufferContent := m.displayBuffer
    match X.Tokenise m.lexer bufferContent with
    | .error err => errorText err
    | .ok iterator =>
      let lines := composedLines m iterator
      let visible := visibleLines 30 lines
      X.ProgressView m.progress ++ X.Render helpText ++ padLines visible

/-- One instance of the outside packages, to evaluate the model on examples: the progress
model keeps the operands of the last `SetPercent`, the highlighter returns its input. -/
def plainLibs : Libs where
  Progress := Int × Int
  LibCmd := Unit
  FrameMsg := Unit
  Lexer := Unit
  Formatter := Unit
  Style := Unit
  Iterator := GoString
  New := (0, 1)
  SetPercent := fun _ n d => ((n, d), ())
  ProgressUpdate := fun p _ => (p, ())
  ProgressView := fun _ => []
  Tokenise := fun _ s => .ok s
  Format := fun _ _ it => it
  Render := fun s => s

/-- The session `main` starts on `content` under `plainLibs`. -/
def plainInit (content : GoString) (md : mode) (speed : Int) : model plainLibs :=
  initModel content () () () md speed

/-- The timer durations of the reveal ticks (`tickCmd`) a command schedules. -/
def Cmd.ticks {X : Libs} : Cmd X → List Int
  | .Tick d .tickMsg => [d]
  | .Batch a b => a.ticks ++ b.ticks
  | _ => []

/-- The timer durations of the cursor ticks (`cursorCmd`) a command schedules. -/
def Cmd.cursorTicks {X : Libs} : Cmd X → List Int
  | .Tick d .cursorTick => [d]
  | .Batch a b => a.cursorTicks ++ b.cursorTicks
  | _ => []

/-- The states the session keeps to: the index is inside the content, the builder holds
the bytes before the index, `done` is only set at the end, and the speed is not zero. -/
structure Inv {X : Libs} (m : model X) : Prop where
  nonneg : 0 ≤ m.currentIndex
  le_len : m.currentIndex ≤ m.content.length
  buffer : m.displayBuffer = m.content.take m.currentIndex.toNat
  done_end : m.done = true → m.currentIndex = m.content.length
  speed : m.user_speed ≠ 0

/-- The model after an advance that appends `b`, with the progress target set. -/
def model.advanced {X : Libs} (m : model X) (b : Byte) : model X :=
  { m with
    displayBuffer := m.displayBuffer ++ [b]
    currentIndex := m.currentIndex + 1
    progress := (X.SetPercent m.progress (m.currentIndex + 1) m.content.length).1 }

/-- The command `SetPercent` returns in an advance. -/
def model.percentCmd {X : Libs} (m : model X) : Cmd X :=
  .lib (X.SetPercent m.progress (m.currentIndex + 1) m.content.length).2

/-- The keys that end the session: `tea.KeyCtrlC` and `tea.KeyEsc`. -/
def KeyType.isExit : KeyType → Bool
  | .KeyCtrlC => true
  | .KeyEsc => true
  | .other _ => false

/-- The pacing events of a mode: `Tick` in `displayMode`, a key that is no exit key in
`typingMode`. -/
def pacing {X : Libs} (md : mode) : Msg X → Bool
  | .tickMsg => md = displayMode
  | .KeyMsg k => md = typingMode && !k.isExit
  | _ => false

/-- The state of the session on `content` under `plainLibs` once every byte is revealed. -/
def plainRevealed (content : GoString) (md : mode) (speed : Int) : model plainLibs :=
  { plainInit content md speed with
    currentIndex := content.length
    displayBuffer := content }

/-- A text of 40 line feeds, which `strings.Split` cuts into 41 empty lines. -/
def fortyLineFeeds : GoString := List.replicate 40 10

/-- A key press that is no exit key, under `plainLibs`. -/
def plainKey : Msg plainLibs := .KeyMsg (.other 0)

/-- A reveal tick, under `plainLibs`. -/
def plainTick : Msg plainLibs := .tickMsg

/-- The bytes of a text given by its characters: the UTF-8 encoding of each character in
turn, as a file holds them. -/
def utf8 (cs : List Char) : GoString :=
  (cs.map fun c => (String.utf8EncodeChar c).map fun b => (b.val : Fin 256)).flatten

/-- The text of the one character U+00E9, two bytes in UTF-8. -/
def eAcute : List Char := [Char.ofNat 233]

/-- The outside packages of `plainLibs` with a lexer that fails on every text, with the
error text `"bad"`. -/
def rejectLibs : Libs :=
  { plainLibs with Tokenise := fun _ _ => .error [98, 97, 100] }

/-- The session `main` starts on `content` under `rejectLibs`. -/
def rejectInit (content : GoString) (md : mode) (speed : Int) : model rejectLibs :=
  initModel content () () () md speed

/-! ## Steps of `Update` -/

theorem index_of_lt (s : GoString) (i : Int) (h0 : 0 ≤ i) (hlt : i < s.length) :
    ∃ b, index s i = some b ∧ s.take (i + 1).toNat = s.take i.toNat ++ [b] := by
  obtain ⟨n, rfl⟩ := Int.eq_ofNat_of_zero_le h0
  have hn : n < s.length := by exact_mod_cast hlt
  refine ⟨s[n], ?_, ?_⟩
  · simp [index, List.getElem?_eq_getElem hn]
  · have : ((n : Int) + 1).toNat = n + 1 := by omega
    rw [this, List.take_succ, List.getElem?_eq_getElem hn]
    rfl

theorem lt_of_index_some (s : GoString) (i : Int) (b : Byte) (h : index s i = some b) :
    0 ≤ i ∧ i < s.length := by
  unfold index at h
  split at h
  · rename_i h0
    obtain ⟨hlt, -⟩ := List.get?_eq_some.mp h
    exact ⟨h0, by omega⟩
  · exact absurd h (by simp)

theorem tickCmd_of_ne_zero {X : Libs} (s : Int) (hs : s ≠ 0) :
    (tickCmd s : Option (Cmd X))
      = some (.Tick (Millisecond * (if Int.tdiv 1000 s < 1 then 1 else Int.tdiv 1000 s))
          .tickMsg) := by
  simp [tickCmd, hs]

theorem Update_exit {X : Libs} (m : model X) (k : KeyType)
    (hk : k = .KeyCtrlC ∨ k = .KeyEsc) : m.Update (.KeyMsg k) = some (m, .Quit) := by
  simp [model.Update, hk]

theorem Update_key_lt {X : Libs} (m : model X) (k : KeyType)
    (hk : ¬ (k = .KeyCtrlC ∨ k = .KeyEsc)) (hm : m.mode = typingMode)
    (h0 : 0 ≤ m.currentIndex) (hlt : m.currentIndex < m.content.length) :
    ∃ b, index m.content m.currentIndex = some b
      ∧ m.content.take (m.currentIndex + 1).toNat = m.content.take m.currentIndex.toNat ++ [b]
      ∧ m.Update (.KeyMsg k) = some (m.advanced b, m.percentCmd) := by
  obtain ⟨b, hb, ht⟩ := index_of_lt m.content m.currentIndex h0 hlt
  refine ⟨b, hb, ht, ?_⟩
  have hge : ¬ (m.currentIndex ≥ m.content.length) := by omega
  simp [model.Update, hk, hm, hge, hlt, model.advance, hb, model.setPercent, model.advanced,
    model.percentCmd]

theorem Update_key_ge {X : Libs} (m : model X) (k : KeyType)
    (hk : ¬ (k = .KeyCtrlC ∨ k = .KeyEsc)) (hm : m.mode = typingMode)
    (hge : (m.content.length : Int) ≤ m.currentIndex) :
    m.Update (.KeyMsg k) = some ({ m with done := true }, .nil) := by
  simp [model.Update, hk, hm, hge]

theorem Update_key_display {X : Libs} (m : model X) (k : KeyType)
    (hk : ¬ (k = .KeyCtrlC ∨ k = .KeyEsc)) (hm : m.mode ≠ typingMode) :
    m.Update (.KeyMsg k) = some (m, .nil) := by
  simp [model.Update, hk, hm]

theorem Update_tick_typing {X : Libs} (m : model X) (hm : m.mode = typingMode) :
    m.Update .tickMsg = some (m, .nil) := by
  simp [model.Update, hm]

theorem Update_tick_lt {X : Libs} (m : model X) (hm : m.mode ≠ typingMode)
    (hs : m.user_speed ≠ 0)
    (h0 : 0 ≤ m.currentIndex) (hlt : m.currentIndex < m.content.length) :
    ∃ b, index m.content m.currentIndex = some b
      ∧ m.content.take (m.currentIndex + 1).toNat = m.content.take m.currentIndex.toNat ++ [b]
      ∧ m.Update .tickMsg
        = some (m.advanced b,
            .Batch (.Tick (Millisecond * (if Int.tdiv 1000 m.user_speed < 1 then 1
              else Int.tdiv 1000 m.user_speed)) .tickMsg) m.percentCmd) := by
  obtain ⟨b, hb, ht⟩ := index_of_lt m.content m.currentIndex h0 hlt
  refine ⟨b, hb, ht, ?_⟩
  have hge : ¬ (m.currentIndex ≥ m.content.length) := by omega
  simp [model.Update, hm, hge, model.advance, hb, model.setPercent, model.advanced,
    model.percentCmd, tickCmd_of_ne_zero _ hs]

theorem Update_tick_ge {X : Libs} (m : model X) (hm : m.mode ≠ typingMode)
    (hge : (m.content.length : Int) ≤ m.currentIndex) :
    m.Update .tickMsg = some ({ m with done := true }, .nil) := by
  simp [model.Update, hm, hge]

theorem Inv_advanced {X : Libs} (m : model X) (b : Byte) (h : Inv m)
    (hlt : m.currentIndex < m.content.length)
    (ht : m.content.take (m.currentIndex + 1).toNat
      = m.content.take m.currentIndex.toNat ++ [b]) : Inv (m.advanced b) where
  nonneg := by have := h.nonneg; simp only [model.advanced]; omega
  le_len := by simp only [model.advanced]; omega
  buffer := by simp only [model.advanced]; rw [ht, h.buffer]
  done_end := by
    intro hd
    have := h.done_end hd
    simp only [model.advanced] at *
    omega
  speed := h.speed

theorem Inv_done {X : Libs} (m : model X) (h : Inv m)
    (hge : (m.content.length : Int) ≤ m.currentIndex) : Inv { m with done := true } where
  nonneg := h.nonneg
  le_len := h.le_len
  buffer := h.buffer
  done_end := fun _ => le_antisymm h.le_len hge
  speed := h.speed

/-- One `Update` from a state of the invariant: it returns, the invariant holds again,
the configuration fields stay, and either the index and the builder stay or the step is
an advance by the byte at the index. -/
theorem Update_Inv {X : Libs} (m : model X) (e : Msg X) (h : Inv m) :
    ∃ m' c, m.Update e = some (m', c) ∧ Inv m' ∧ m'.content = m.content
      ∧ m'.mode = m.mode ∧ m'.user_speed = m.user_speed
      ∧ ((m'.currentIndex = m.currentIndex ∧ m'.displayBuffer = m.displayBuffer)
        ∨ ∃ b, index m.content m.currentIndex = some b ∧ m' = m.advanced b) := by
  cases e with
  | KeyMsg k =>
    by_cases hk : k = .KeyCtrlC ∨ k = .KeyEsc
    · exact ⟨m, _, Update_exit m k hk, h, rfl, rfl, rfl, Or.inl ⟨rfl, rfl⟩⟩
    · by_cases hm : m.mode = typingMode
      · by_cases hlt : m.currentIndex < m.content.length
        · obtain ⟨b, hb, ht, hu⟩ := Update_key_lt m k hk hm h.nonneg hlt
          exact ⟨_, _, hu, Inv_advanced m b h hlt ht, rfl, rfl, rfl, Or.inr ⟨b, hb, rfl⟩⟩
        · have hge : (m.content.length : Int) ≤ m.currentIndex := by omega
          exact ⟨_, _, Update_key_ge m k hk hm hge, Inv_done m h hge, rfl, rfl, rfl,
            Or.inl ⟨rfl, rfl⟩⟩
      · exact ⟨m, _, Update_key_display m k hk hm, h, rfl, rfl, rfl, Or.inl ⟨rfl, rfl⟩⟩
  | tickMsg =>
    by_cases hm : m.mode = typingMode
    · exact ⟨m, _, Update_tick_typing m hm, h, rfl, rfl, rfl, Or.inl ⟨rfl, rfl⟩⟩
    · by_cases hlt : m.currentIndex < m.content.length
      · obtain ⟨b, hb, ht, hu⟩ := Update_tick_lt m hm h.speed h.nonneg hlt
        exact ⟨_, _, hu, Inv_advanced m b h hlt ht, rfl, rfl, rfl, Or.inr ⟨b, hb, rfl⟩⟩
      · have hge : (m.content.length : Int) ≤ m.currentIndex := by omega
        exact ⟨_, _, Update_tick_ge m hm hge, Inv_done m h hge, rfl, rfl, rfl,
          Or.inl ⟨rfl, rfl⟩⟩
  | cursorTick =>
    exact ⟨_, _, rfl, ⟨h.nonneg, h.le_len, h.buffer, h.done_end, h.speed⟩, rfl, rfl, rfl,
      Or.inl ⟨rfl, rfl⟩⟩
  | FrameMsg f =>
    exact ⟨_, _, rfl, ⟨h.nonneg, h.le_len, h.buffer, h.done_end, h.speed⟩, rfl, rfl, rfl,
      Or.inl ⟨rfl, rfl⟩⟩
  | other => exact ⟨m, _, rfl, h, rfl, rfl, rfl, Or.inl ⟨rfl, rfl⟩⟩

/-- A run from a state of the invariant returns a state of the invariant. -/
theorem run_Inv {X : Libs} (es : List (Msg X)) (m : model X) (h : Inv m) :
    ∃ m', run m es = some m' ∧ Inv m' ∧ m'.content = m.content
      ∧ m'.mode = m.mode ∧ m'.user_speed = m.user_speed := by
  induction es generalizing m with
  | nil => exact ⟨m, rfl, h, rfl, rfl, rfl⟩
  | cons e es ih =>
    obtain ⟨m1, c, hu, h1, hc1, hm1, hs1, -⟩ := Update_Inv m e h
    obtain ⟨m2, hr, h2, hc2, hm2, hs2⟩ := ih m1 h1
    refine ⟨m2, ?_, h2, hc2.trans hc1, hm2.trans hm1, hs2.trans hs1⟩
    simp [run, hu, hr]

/-- One `Update` in one of the two modes moves the index by one, up to the length, on a
pacing event of the mode and leaves it on every other event. -/
theorem Update_pacing {X : Libs} (m : model X) (e : Msg X) (h : Inv m)
    (hmode : m.mode = displayMode ∨ m.mode = typingMode) :
    ∃ m' c, m.Update e = some (m', c) ∧ Inv m' ∧ m'.content = m.content
      ∧ m'.mode = m.mode
      ∧ m'.currentIndex
        = if pacing m.mode e = true then min (m.currentIndex + 1) m.content.length
          else m.currentIndex := by
  have hdt : displayMode ≠ typingMode := by decide
  have hle := h.le_len
  cases e with
  | KeyMsg k =>
    by_cases hk : k = .KeyCtrlC ∨ k = .KeyEsc
    · refine ⟨m, _, Update_exit m k hk, h, rfl, rfl, ?_⟩
      rcases hk with rfl | rfl <;> simp [pacing, KeyType.isExit]
    · have hx : k.isExit = false := by
        cases k <;> simp_all [KeyType.isExit]
      by_cases hm : m.mode = typingMode
      · by_cases hlt : m.currentIndex < m.content.length
        · obtain ⟨b, -, ht, hu⟩ := Update_key_lt m k hk hm h.nonneg hlt
          refine ⟨_, _, hu, Inv_advanced m b h hlt ht, rfl, rfl, ?_⟩
          have : m.currentIndex + 1 ≤ m.content.length := by omega
          simp [model.advanced, pacing, hm, hx, this]
        · have hge : (m.content.length : Int) ≤ m.currentIndex := by omega
          refine ⟨_, _, Update_key_ge m k hk hm hge, Inv_done m h hge, rfl, rfl, ?_⟩
          have : (m.content.length : Int) ≤ m.currentIndex + 1 := by omega
          simp [pacing, hm, hx, this]
          omega
      · refine ⟨m, _, Update_key_display m k hk hm, h, rfl, rfl, ?_⟩
        simp [pacing, hm]
  | tickMsg =>
    by_cases hm : m.mode = typingMode
    · refine ⟨m, _, Update_tick_typing m hm, h, rfl, rfl, ?_⟩
      simp [pacing, hm, hdt.symm]
    · have hd : m.mode = displayMode := hmode.resolve_right hm
      by_cases hlt : m.currentIndex < m.content.length
      · obtain ⟨b, -, ht, hu⟩ := Update_tick_lt m hm h.speed h.nonneg hlt
        refine ⟨_, _, hu, Inv_advanced m b h hlt ht, rfl, rfl, ?_⟩
        have : m.currentIndex + 1 ≤ m.content.length := by omega
        simp [model.advanced, pacing, hd, this]
      · have hge : (m.content.length : Int) ≤ m.currentIndex := by omega
        refine ⟨_, _, Update_tick_ge m hm hge, Inv_done m h hge, rfl, rfl, ?_⟩
        have : (m.content.length : Int) ≤ m.currentIndex + 1 := by omega
        simp [pacing, hd, this]
        omega
  | cursorTick =>
    exact ⟨_, _, rfl, ⟨h.nonneg, h.le_len, h.buffer, h.done_end, h.speed⟩, rfl, rfl,
      by simp [pacing]⟩
  | FrameMsg f =>
    exact ⟨_, _, rfl, ⟨h.nonneg, h.le_len, h.buffer, h.done_end, h.speed⟩, rfl, rfl,
      by simp [pacing]⟩
  | other => exact ⟨m, _, rfl, h, rfl, rfl, by simp [pacing]⟩

/-- A run in one of the two modes moves the index by the number of pacing events of the
mode, up to the length. -/
theorem run_pacing {X : Libs} (es : List (Msg X)) (m : model X) (h : Inv m)
    (hmode : m.mode = displayMode ∨ m.mode = typingMode) :
    ∃ m', run m es = some m'
      ∧ m'.currentIndex
        = min (m.currentIndex + (es.countP (pacing m.mode) : Nat)) m.content.length := by
  induction es generalizing m with
  | nil =>
    refine ⟨m, rfl, ?_⟩
    have := h.le_len
    simp [this]
  | cons e es ih =>
    obtain ⟨m1, c, hu, h1, hc1, hm1, hi1⟩ := Update_pacing m e h hmode
    obtain ⟨m2, hr, hi2⟩ := ih m1 h1 (hm1 ▸ hmode)
    refine ⟨m2, by simp [run, hu, hr], ?_⟩
    rw [hi2, hi1, hc1, hm1, List.countP_cons]
    have hle := h.le_len
    by_cases hp : pacing m.mode e = true
    · simp only [hp, if_true]
      push_cast
      omega
    · simp only [hp, if_false]
      push_cast
      omega

theorem Inv_initModel {X : Libs} (content : GoString) (lexer : X.Lexer)
    (formatter : X.Formatter) (style : X.Style) (md : mode) (speed : Int)
    (hs : 0 < speed) : Inv (initModel content lexer formatter style md speed : model X) where
  nonneg := le_refl _
  le_len := by simp [initModel]
  buffer := by simp [initModel]
  done_end := by simp [initModel]
  speed := by simp only [initModel]; omega

theorem visibleLines_eq_drop (n : Nat) (lines : List GoString) :
    visibleLines n lines = lines.drop (lines.length - n) := by
  unfold visibleLines
  by_cases h : lines.length > n
  · simp [h]
  · have : lines.length - n = 0 := by omega
    simp [h, this]

theorem View_eq {X : Libs} (m : model X) :
    m.View
      = match X.Tokenise m.lexer m.displayBuffer with
        | .error err => errorText err
        | .ok iterator =>
          X.ProgressView m.progress ++ X.Render helpText
            ++ padLines (visibleLines (maxVisibleLines m.mode) (composedLines m iterator)) := by
  unfold model.View maxVisibleLines
  by_cases h : m.mode = typingMode <;> simp [h]

theorem run_cursorTicks {X : Libs} (n : Nat) (m : model X) :
    ∃ m', run m (List.replicate n .cursorTick) = some m'
      ∧ m'.cursorVisible = (if n % 2 = 0 then m.cursorVisible else !m.cursorVisible) := by
  induction n generalizing m with
  | zero => exact ⟨m, rfl, by simp⟩
  | succ n ih =>
    obtain ⟨m', hr, hv⟩ := ih { m with cursorVisible := !m.cursorVisible }
    refine ⟨m', by simpa [List.replicate_succ, run, model.Update] using hr, ?_⟩
    rw [hv]
    rcases Nat.mod_two_eq_zero_or_one n with h | h
    · have : (n + 1) % 2 = 1 := by omega
      simp [h, this]
    · have : (n + 1) % 2 = 0 := by omega
      simp [h, this]

theorem advance_some {X : Libs} (m m1 : model X) (h : m.advance = some m1) :
    ∃ b, index m.content m.currentIndex = some b
      ∧ m1 = { m with displayBuffer := m.displayBuffer ++ [b]
                      currentIndex := m.currentIndex + 1 } := by
  unfold model.advance at h
  cases hb : index m.content m.currentIndex with
  | none => simp [hb] at h
  | some b =>
    refine ⟨b, rfl, ?_⟩
    simp [hb] at h
    exact h.symm

/-- Whenever `Update` returns, the configuration fields of the model are as before. -/
theorem Update_frame {X : Libs} (m : model X) (e : Msg X) (m' : model X) (c : Cmd X)
    (h : m.Update e = some (m', c)) :
    m'.content = m.content ∧ m'.mode = m.mode ∧ m'.user_speed = m.user_speed := by
  cases e with
  | KeyMsg k =>
    by_cases hk : k = .KeyCtrlC ∨ k = .KeyEsc
    · rw [Update_exit m k hk] at h
      obtain ⟨rfl, -⟩ := Prod.mk.inj (Option.some.inj h)
      exact ⟨rfl, rfl, rfl⟩
    · by_cases hm : m.mode = typingMode
      · by_cases hge : (m.content.length : Int) ≤ m.currentIndex
        · rw [Update_key_ge m k hk hm hge] at h
          obtain ⟨rfl, -⟩ := Prod.mk.inj (Option.some.inj h)
          exact ⟨rfl, rfl, rfl⟩
        · have hlt : m.currentIndex < m.content.length := by omega
          simp only [model.Update, if_neg hk, if_pos hm, ge_iff_le, if_neg hge, if_pos hlt]
            at h
          cases ha : m.advance with
          | none => simp [ha] at h
          | some m1 =>
            obtain ⟨b, -, rfl⟩ := advance_some m m1 ha
            simp [ha, model.setPercent] at h
            obtain ⟨rfl, -⟩ := h
            exact ⟨rfl, rfl, rfl⟩
      · rw [Update_key_display m k hk hm] at h
        obtain ⟨rfl, -⟩ := Prod.mk.inj (Option.some.inj h)
        exact ⟨rfl, rfl, rfl⟩
  | tickMsg =>
    by_cases hm : m.mode = typingMode
    · rw [Update_tick_typing m hm] at h
      obtain ⟨rfl, -⟩ := Prod.mk.inj (Option.some.inj h)
      exact ⟨rfl, rfl, rfl⟩
    · by_cases hge : (m.content.length : Int) ≤ m.currentIndex
      · rw [Update_tick_ge m hm hge] at h
        obtain ⟨rfl, -⟩ := Prod.mk.inj (Option.some.inj h)
        exact ⟨rfl, rfl, rfl⟩
      · simp only [model.Update, if_neg hm, ge_iff_le, if_neg hge] at h
        cases ha : m.advance with
        | none => simp [ha] at h
        | some m1 =>
          obtain ⟨b, -, rfl⟩ := advance_some m m1 ha
          cases ht : (tickCmd m.user_speed : Option (Cmd X)) with
          | none => simp [ha, model.setPercent, ht] at h
          | some t =>
            simp [ha, model.setPercent, ht] at h
            obtain ⟨rfl, -⟩ := h
            exact ⟨rfl, rfl, rfl⟩
  | cursorTick =>
    obtain ⟨rfl, -⟩ := Prod.mk.inj (Option.some.inj h)
    exact ⟨rfl, rfl, rfl⟩
  | FrameMsg f =>
    obtain ⟨rfl, -⟩ := Prod.mk.inj (Option.some.inj h)
    exact ⟨rfl, rfl, rfl⟩
  | other =>
    obtain ⟨rfl, -⟩ := Prod.mk.inj (Option.some.inj h)
    exact ⟨rfl, rfl, rfl⟩

/-- From an index that is not negative and a speed that is not zero, `Update` returns. -/
theorem Update_total {X : Libs} (m : model X) (e : Msg X) (h0 : 0 ≤ m.currentIndex)
    (hs : m.user_speed ≠ 0) : ∃ m' c, m.Update e = some (m', c) := by
  cases e with
  | KeyMsg k =>
    by_cases hk : k = .KeyCtrlC ∨ k = .KeyEsc
    · exact ⟨_, _, Update_exit m k hk⟩
    · by_cases hm : m.mode = typingMode
      · by_cases hlt : m.currentIndex < m.content.length
        · obtain ⟨b, -, -, hu⟩ := Update_key_lt m k hk hm h0 hlt
          exact ⟨_, _, hu⟩
        · exact ⟨_, _, Update_key_ge m k hk hm (by omega)⟩
      · exact ⟨_, _, Update_key_display m k hk hm⟩
  | tickMsg =>
    by_cases hm : m.mode = typingMode
    · exact ⟨_, _, Update_tick_typing m hm⟩
    · by_cases hlt : m.currentIndex < m.content.length
      · obtain ⟨b, -, -, hu⟩ := Update_tick_lt m hm hs h0 hlt
        exact ⟨_, _, hu⟩
      · exact ⟨_, _, Update_tick_ge m hm (by omega)⟩
  | cursorTick => exact ⟨_, _, rfl⟩
  | FrameMsg f => exact ⟨_, _, rfl⟩
  | other => exact ⟨_, _, rfl⟩

/-! ## The reveal state over a session -/

/-- C1: from the initial model, after any list of events `Update` returns, and across
every step `currentIndex` does not decrease and stays within `0 .. len(content)`. -/
theorem currentIndex_monotone_bounded {X : Libs} (content : GoString) (lexer : X.Lexer)
    (formatter : X.Formatter) (style : X.Style) (md : mode) (speed : Int) (hs : 0 < speed)
    (es : List (Msg X)) (e : Msg X) :
    ∃ m m' c, run (initModel content lexer formatter style md speed) es = some m
      ∧ m.Update e = some (m', c)
      ∧ 0 ≤ m.currentIndex ∧ m.currentIndex ≤ content.length
      ∧ m.currentIndex ≤ m'.currentIndex
      ∧ 0 ≤ m'.currentIndex ∧ m'.currentIndex ≤ content.length := by
  obtain ⟨m, hr, hi, hc, -, -⟩ :=
    run_Inv es _ (Inv_initModel content lexer formatter style md speed hs)
  obtain ⟨m', c, hu, hi', hc', -, -, hshape⟩ := Update_Inv m e hi
  have h1 := hi.le_len
  have h2 := hi'.le_len
  rw [hc] at h1
  rw [hc', hc] at h2
  refine ⟨m, m', c, hr, hu, hi.nonneg, h1, ?_, hi'.nonneg, h2⟩
  rcases hshape with ⟨h, -⟩ | ⟨b, -, rfl⟩
  · exact h.ge
  · simp [model.advanced]

theorem currentIndex_monotone_bounded_witness :
    (0 : Int) < 20
      ∧ ∃ m m' c, run (plainInit [97, 98] typingMode 20) [plainKey] = some m
        ∧ m.Update plainKey = some (m', c)
        ∧ 0 ≤ m.currentIndex ∧ m.currentIndex ≤ ([97, 98] : GoString).length
        ∧ m.currentIndex ≤ m'.currentIndex
        ∧ 0 ≤ m'.currentIndex ∧ m'.currentIndex ≤ ([97, 98] : GoString).length :=
  ⟨by decide,
    currentIndex_monotone_bounded (X := plainLibs) [97, 98] () () () typingMode 20
      (by decide) [plainKey] plainKey⟩

/-- C2, as stated, fails: on `"ab"` in typing mode the second key press reveals the last
byte, `currentIndex` is `len(content)`, and `done` is still false. -/
theorem done_false_after_last_reveal :
    ∃ m, run (plainInit [97, 98] typingMode 20) [plainKey, plainKey] = some m
      ∧ m.currentIndex = 2 ∧ m.done = false
      ∧ ¬ (m.done = true ↔ m.currentIndex = (([97, 98] : GoString).length : Int)) :=
  ⟨_, rfl, rfl, rfl, by decide⟩

/-- C2, amended: in every state reached from the initial model `done` implies
`currentIndex = len(content)`; an event that moves the index leaves `done` false; and at
`currentIndex = len(content)` a pacing event of the mode returns with `done` set, the index
unchanged and no command. -/
theorem done_set_by_next_pacing_event {X : Libs} (content : GoString) (lexer : X.Lexer)
    (formatter : X.Formatter) (style : X.Style) (md : mode) (speed : Int) (hs : 0 < speed)
    (es : List (Msg X)) :
    ∃ m, run (initModel content lexer formatter style md speed) es = some m
      ∧ (m.done = true → m.currentIndex = content.length)
      ∧ (∀ e m' c, m.Update e = some (m', c) → m'.currentIndex ≠ m.currentIndex →
          m'.done = false)
      ∧ (m.currentIndex = content.length → ∀ e, pacing md e = true →
          ∃ m', m.Update e = some (m', .nil) ∧ m'.done = true
            ∧ m'.currentIndex = m.currentIndex) := by
  obtain ⟨m, hr, hi, hc, hm, -⟩ :=
    run_Inv es _ (Inv_initModel content lexer formatter style md speed hs)
  have hmd : m.mode = md := hm
  have hc' : m.content = content := hc
  refine ⟨m, hr, fun hd => hc' ▸ hi.done_end hd, ?_, ?_⟩
  · intro e m' c hu hne
    obtain ⟨m2, c', hu2, -, -, -, -, hshape⟩ := Update_Inv m e hi
    rw [hu] at hu2
    obtain ⟨rfl, -⟩ := Prod.mk.inj (Option.some.inj hu2)
    rcases hshape with ⟨h, -⟩ | ⟨b, hb, rfl⟩
    · exact absurd h hne
    · have hlt := (lt_of_index_some _ _ _ hb).2
      have hnd : ¬ m.done = true := fun hd => by
        have := hi.done_end hd
        omega
      simpa [model.advanced] using hnd
  · intro hend e hp
    have hge : (m.content.length : Int) ≤ m.currentIndex := by rw [hc', hend]
    cases e with
    | KeyMsg k =>
      have hp' : md = typingMode ∧ k.isExit = false := by simpa [pacing] using hp
      have hk : ¬ (k = .KeyCtrlC ∨ k = .KeyEsc) := by
        rintro (rfl | rfl) <;> simp [KeyType.isExit] at hp'
      exact ⟨_, Update_key_ge m k hk (hmd.trans hp'.1) hge, rfl, rfl⟩
    | tickMsg =>
      have hp' : md = displayMode := by simpa [pacing] using hp
      have hne : m.mode ≠ typingMode := by rw [hmd, hp']; decide
      exact ⟨_, Update_tick_ge m hne hge, rfl, rfl⟩
    | cursorTick => simp [pacing] at hp
    | FrameMsg f => simp [pacing] at hp
    | other => simp [pacing] at hp

theorem done_set_by_next_pacing_event_witness :
    (0 : Int) < 20
      ∧ ∃ m, run (plainInit [97, 98] typingMode 20) [plainKey, plainKey] = some m
        ∧ (m.done = true → m.currentIndex = ([97, 98] : GoString).length)
        ∧ (∀ e m' c, m.Update e = some (m', c) → m'.currentIndex ≠ m.currentIndex →
            m'.done = false)
        ∧ (m.currentIndex = ([97, 98] : GoString).length →
            ∀ e, pacing typingMode e = true →
              ∃ m', m.Update e = some (m', .nil) ∧ m'.done = true
                ∧ m'.currentIndex = m.currentIndex) :=
  ⟨by decide,
    done_set_by_next_pacing_event (X := plainLibs) [97, 98] () () () typingMode 20
      (by decide) [plainKey, plainKey]⟩

/-- C3: from the initial model in one of the two modes, after any list of events
`currentIndex` is the minimum of the number of pacing events of the mode in the list and
`len(content)`; this holds in particular for the lists without an exit key (an exit key is
no pacing event and leaves the index as it is). -/
theorem currentIndex_eq_min_pacing_count {X : Libs} (content : GoString) (lexer : X.Lexer)
    (formatter : X.Formatter) (style : X.Style) (md : mode) (speed : Int) (hs : 0 < speed)
    (hmode : md = displayMode ∨ md = typingMode)
    (es : List (Msg X)) :
    ∃ m, run (initModel content lexer formatter style md speed) es = some m
      ∧ m.currentIndex = min ((es.countP (pacing md) : Nat) : Int) content.length := by
  obtain ⟨m, hr, hi⟩ :=
    run_pacing es _ (Inv_initModel content lexer formatter style md speed hs) hmode
  refine ⟨m, hr, ?_⟩
  rw [hi]
  simp [initModel]

theorem currentIndex_eq_min_pacing_count_witness :
    ∃ m, run (plainInit [97, 98] typingMode 20) [plainKey, plainKey, plainKey] = some m
      ∧ m.currentIndex
        = min (([plainKey, plainKey, plainKey].countP (pacing typingMode) : Nat) : Int)
            ([97, 98] : GoString).length :=
  currentIndex_eq_min_pacing_count (X := plainLibs) [97, 98] () () () typingMode 20
    (by decide) (Or.inr rfl) [plainKey, plainKey, plainKey]

/-- C4, as stated, fails: on a one-byte content in display mode the tick that brings
`currentIndex` to `len(content)` returns a batch holding a `tickCmd` of 50 ms. -/
theorem tick_rescheduled_by_last_reveal :
    ∃ m' c, (plainInit [97] displayMode 20).Update plainTick = some (m', c)
      ∧ m'.currentIndex = (([97] : GoString).length : Int)
      ∧ c.ticks = [Millisecond * 50] ∧ c.ticks ≠ [] :=
  ⟨_, _, rfl, rfl, rfl, by decide⟩

/-- C4, amended: in display mode a tick handled below `len(content)` advances by one and
returns a batch of `tickCmd(user_speed)` and the progress command, hence exactly one
reveal tick, also when the advance reaches `len(content)`; a tick handled at
`len(content)` sets `done` and returns no command. -/
theorem tick_rescheduled_by_every_advance {X : Libs} (m : model X)
    (hm : m.mode = displayMode) (hs : m.user_speed ≠ 0) (h0 : 0 ≤ m.currentIndex) :
    (m.currentIndex < m.content.length →
      ∃ m' t lc, m.Update .tickMsg = some (m', .Batch t (.lib lc))
        ∧ tickCmd m.user_speed = some t
        ∧ m'.currentIndex = m.currentIndex + 1
        ∧ (Cmd.Batch t (.lib lc)).ticks.length = 1)
    ∧ ((m.content.length : Int) ≤ m.currentIndex →
      m.Update .tickMsg = some ({ m with done := true }, .nil)
        ∧ (Cmd.nil : Cmd X).ticks = []) := by
  have hne : m.mode ≠ typingMode := by rw [hm]; decide
  constructor
  · intro hlt
    obtain ⟨b, -, -, hu⟩ := Update_tick_lt m hne hs h0 hlt
    exact ⟨_, _, _, hu, tickCmd_of_ne_zero _ hs, rfl, rfl⟩
  · intro hge
    exact ⟨Update_tick_ge m hne hge, rfl⟩

theorem tick_rescheduled_by_every_advance_witness :
    (plainInit [97] displayMode 20).mode = displayMode
      ∧ (plainInit [97] displayMode 20).user_speed ≠ 0
      ∧ 0 ≤ (plainInit [97] displayMode 20).currentIndex
      ∧ ((plainInit [97] displayMode 20).currentIndex
            < (plainInit [97] displayMode 20).content.length →
          ∃ m' t lc, (plainInit [97] displayMode 20).Update .tickMsg
              = some (m', .Batch t (.lib lc))
            ∧ tickCmd (plainInit [97] displayMode 20).user_speed = some t
            ∧ m'.currentIndex = (plainInit [97] displayMode 20).currentIndex + 1
            ∧ (Cmd.Batch t (.lib lc)).ticks.length = 1)
      ∧ (((plainInit [97] displayMode 20).content.length : Int)
            ≤ (plainInit [97] displayMode 20).currentIndex →
          (plainInit [97] displayMode 20).Update .tickMsg
              = some ({ plainInit [97] displayMode 20 with done := true }, .nil)
            ∧ (Cmd.nil : Cmd plainLibs).ticks = []) :=
  ⟨rfl, by decide, by decide,
    tick_rescheduled_by_every_advance (plainInit [97] displayMode 20) rfl (by decide)
      (by decide)⟩

/-- C5: in every state reached from the initial model the builder holds
`content[0:currentIndex]`, and a step of `Update` either leaves the index and the builder
or appends the one byte `content[currentIndex]` and moves the index by one. -/
theorem displayBuffer_eq_content_take {X : Libs} (content : GoString) (lexer : X.Lexer)
    (formatter : X.Formatter) (style : X.Style) (md : mode) (speed : Int) (hs : 0 < speed)
    (es : List (Msg X)) (e : Msg X) :
    ∃ m m' c, run (initModel content lexer formatter style md speed) es = some m
      ∧ 0 ≤ m.currentIndex
      ∧ m.displayBuffer = content.take m.currentIndex.toNat
      ∧ m.Update e = some (m', c)
      ∧ ((m'.currentIndex = m.currentIndex ∧ m'.displayBuffer = m.displayBuffer)
        ∨ ∃ b, index content m.currentIndex = some b
            ∧ m'.currentIndex = m.currentIndex + 1
            ∧ m'.displayBuffer = m.displayBuffer ++ [b])
      ∧ m'.displayBuffer = content.take m'.currentIndex.toNat := by
  obtain ⟨m, hr, hi, hc, -, -⟩ :=
    run_Inv es _ (Inv_initModel content lexer formatter style md speed hs)
  have hc0 : m.content = content := hc
  obtain ⟨m', c, hu, hi', hc', -, -, hshape⟩ := Update_Inv m e hi
  refine ⟨m, m', c, hr, hi.nonneg, hc0 ▸ hi.buffer, hu, ?_, ?_⟩
  · rcases hshape with h | ⟨b, hb, rfl⟩
    · exact Or.inl h
    · exact Or.inr ⟨b, hc0 ▸ hb, rfl, rfl⟩
  · have := hi'.buffer
    rwa [hc', hc0] at this

theorem displayBuffer_eq_content_take_witness :
    (0 : Int) < 20
      ∧ ∃ m m' c, run (plainInit [97, 98] displayMode 20) [plainTick] = some m
        ∧ 0 ≤ m.currentIndex
        ∧ m.displayBuffer = ([97, 98] : GoString).take m.currentIndex.toNat
        ∧ m.Update plainTick = some (m', c)
        ∧ ((m'.currentIndex = m.currentIndex ∧ m'.displayBuffer = m.displayBuffer)
          ∨ ∃ b, index [97, 98] m.currentIndex = some b
              ∧ m'.currentIndex = m.currentIndex + 1
              ∧ m'.displayBuffer = m.displayBuffer ++ [b])
        ∧ m'.displayBuffer = ([97, 98] : GoString).take m'.currentIndex.toNat :=
  ⟨by decide,
    displayBuffer_eq_content_take (X := plainLibs) [97, 98] () () () displayMode 20
      (by decide) [plainTick] plainTick⟩

/-- C6: for a speed `S > 0`, `tickCmd(S)` is a tick after `max(1, 1000 / S)` milliseconds,
which is at least 1; `S = 20` gives 50 and every `S > 1000` gives 1. -/
theorem tickCmd_interval {X : Libs} (S : Int) (hS : 0 < S) :
    (tickCmd S : Option (Cmd X)) = some (.Tick (Millisecond * max 1 (1000 / S)) .tickMsg)
      ∧ 1 ≤ max 1 (1000 / S)
      ∧ (S = 20 → max 1 (1000 / S) = 50)
      ∧ (1000 < S → max 1 (1000 / S) = 1) := by
  have hdiv : Int.tdiv 1000 S = 1000 / S := Int.tdiv_eq_ediv (by decide) hS.le
  refine ⟨?_, le_max_left _ _, ?_, ?_⟩
  · rw [tickCmd_of_ne_zero S hS.ne', hdiv]
    by_cases h : 1000 / S < 1
    · rw [if_pos h, max_eq_left h.le]
    · rw [if_neg h, max_eq_right (not_lt.mp h)]
  · rintro rfl
    decide
  · intro h
    rw [Int.ediv_eq_zero_of_lt (by decide) h]
    decide

theorem tickCmd_interval_witness :
    (0 : Int) < 20
      ∧ (tickCmd 20 : Option (Cmd plainLibs))
          = some (.Tick (Millisecond * max 1 (1000 / 20)) .tickMsg)
      ∧ (1 : Int) ≤ max 1 (1000 / 20)
      ∧ ((20 : Int) = 20 → max (1 : Int) (1000 / 20) = 50)
      ∧ ((1000 : Int) < 20 → max (1 : Int) (1000 / 20) = 1) :=
  ⟨by decide, tickCmd_interval 20 (by decide)⟩

/-! ## The frame, the exit keys and the cursor -/

/-- C7: when the revealed text tokenises, `View` pads exactly the last
`min(L, maxVisibleLines)` of the `L` lines of the composed text, in their order, with
`maxVisibleLines` 35 in typing mode and 30 in display mode; for `L ≤ maxVisibleLines`
these are all the lines. -/
theorem View_retains_last_lines {X : Libs} (m : model X) (iterator : X.Iterator)
    (hok : X.Tokenise m.lexer m.displayBuffer = .ok iterator) :
    ∃ dropped retained, composedLines m iterator = dropped ++ retained
      ∧ retained.length = min (composedLines m iterator).length (maxVisibleLines m.mode)
      ∧ ((composedLines m iterator).length ≤ maxVisibleLines m.mode →
          retained = composedLines m iterator)
      ∧ m.View = X.ProgressView m.progress ++ X.Render helpText ++ padLines retained
      ∧ maxVisibleLines typingMode = 35 ∧ maxVisibleLines displayMode = 30 := by
  refine ⟨(composedLines m iterator).take
      ((composedLines m iterator).length - maxVisibleLines m.mode),
    visibleLines (maxVisibleLines m.mode) (composedLines m iterator), ?_, ?_, ?_, ?_,
    by decide, by decide⟩
  · rw [visibleLines_eq_drop, List.take_append_drop]
  · rw [visibleLines_eq_drop, List.length_drop]
    omega
  · intro h
    rw [visibleLines_eq_drop, Nat.sub_eq_zero_of_le h, List.drop_zero]
  · rw [View_eq, hok]

theorem View_retains_last_lines_witness :
    plainLibs.Tokenise (plainRevealed fortyLineFeeds displayMode 20).lexer
        (plainRevealed fortyLineFeeds displayMode 20).displayBuffer = .ok fortyLineFeeds
      ∧ ∃ dropped retained,
        composedLines (plainRevealed fortyLineFeeds displayMode 20) fortyLineFeeds
          = dropped ++ retained
        ∧ retained.length
          = min (composedLines (plainRevealed fortyLineFeeds displayMode 20)
                fortyLineFeeds).length
              (maxVisibleLines (plainRevealed fortyLineFeeds displayMode 20).mode)
        ∧ ((composedLines (plainRevealed fortyLineFeeds displayMode 20)
                fortyLineFeeds).length
              ≤ maxVisibleLines (plainRevealed fortyLineFeeds displayMode 20).mode →
            retained
              = composedLines (plainRevealed fortyLineFeeds displayMode 20) fortyLineFeeds)
        ∧ (plainRevealed fortyLineFeeds displayMode 20).View
          = plainLibs.ProgressView (plainRevealed fortyLineFeeds displayMode 20).progress
              ++ plainLibs.Render helpText ++ padLines retained
        ∧ maxVisibleLines typingMode = 35 ∧ maxVisibleLines displayMode = 30 :=
  ⟨rfl,
    View_retains_last_lines (plainRevealed fortyLineFeeds displayMode 20) fortyLineFeeds
      rfl⟩

/-- C8: on a key press of type Ctrl+C or Esc `Update` returns the input model and
`tea.Quit`, a command that schedules no reveal tick and no cursor tick. -/
theorem exit_key_quits {X : Libs} (m : model X) :
    m.Update (.KeyMsg .KeyCtrlC) = some (m, .Quit)
      ∧ m.Update (.KeyMsg .KeyEsc) = some (m, .Quit)
      ∧ (Cmd.Quit : Cmd X).ticks = [] ∧ (Cmd.Quit : Cmd X).cursorTicks = [] :=
  ⟨Update_exit m _ (Or.inl rfl), Update_exit m _ (Or.inr rfl), rfl, rfl⟩

/-- C9: a tick in typing mode, and a key press other than Esc and Ctrl+C in display mode,
return the input model and no command. -/
theorem inactive_pacing_ignored {X : Libs} (mi ma : model X) (k : KeyType)
    (hi : mi.mode = typingMode) (ha : ma.mode = displayMode)
    (hk : k ≠ .KeyCtrlC ∧ k ≠ .KeyEsc) :
    mi.Update .tickMsg = some (mi, .nil) ∧ ma.Update (.KeyMsg k) = some (ma, .nil) := by
  refine ⟨Update_tick_typing mi hi, Update_key_display ma k ?_ ?_⟩
  · rintro (h | h)
    · exact hk.1 h
    · exact hk.2 h
  · rw [ha]
    decide

theorem inactive_pacing_ignored_witness :
    (plainInit [97, 98] typingMode 20).mode = typingMode
      ∧ (plainInit [97, 98] displayMode 20).mode = displayMode
      ∧ (KeyType.other 0 ≠ .KeyCtrlC ∧ KeyType.other 0 ≠ .KeyEsc)
      ∧ (plainInit [97, 98] typingMode 20).Update .tickMsg
          = some (plainInit [97, 98] typingMode 20, .nil)
      ∧ (plainInit [97, 98] displayMode 20).Update (.KeyMsg (.other 0))
          = some (plainInit [97, 98] displayMode 20, .nil) :=
  ⟨rfl, rfl, by decide,
    inactive_pacing_ignored (plainInit [97, 98] typingMode 20)
      (plainInit [97, 98] displayMode 20) (.other 0) rfl rfl (by decide)⟩

/-- C10: on a cursor tick `Update` returns, in every state, the model with
`cursorVisible` negated and the other fields as they were; two cursor ticks in a row give
back the model, and after `n` of them the visibility is the initial one for even `n` and
its negation for odd `n`. -/
theorem cursorTick_toggles {X : Libs} (m : model X) :
    (∃ c, m.Update .cursorTick = some ({ m with cursorVisible := !m.cursorVisible }, c))
      ∧ run m [.cursorTick, .cursorTick] = some m
      ∧ ∀ n : Nat, ∃ m', run m (List.replicate n .cursorTick) = some m'
          ∧ m'.cursorVisible = (if n % 2 = 0 then m.cursorVisible else !m.cursorVisible) := by
  refine ⟨⟨_, rfl⟩, ?_, fun n => run_cursorTicks n m⟩
  cases m
  simp [run, model.Update]

/-! ## The cursor cadence and the unit of an advance -/

/-- C11, at the failing input: in typing mode `Init` schedules the first cursor tick
after 250 ms, while `Update` on a cursor tick reschedules it after the 500 ms of the
mode. -/
theorem Init_cursor_cadence_typing :
    (plainInit [97] typingMode 20).Init.map Cmd.cursorTicks = some [Millisecond * 250]
      ∧ ((plainInit [97] typingMode 20).Update .cursorTick).map (fun r => r.2.cursorTicks)
        = some [Millisecond * 500]
      ∧ ((plainInit [97] displayMode 20).Update .cursorTick).map (fun r => r.2.cursorTicks)
        = some [Millisecond * 250] :=
  ⟨rfl, rfl, rfl⟩

/-- C12, at the failing input: on the text of the one character U+00E9 (bytes 195, 169)
the first key press in typing mode leaves the builder with the byte 195 alone, which is
the encoding of no number of leading characters of the text. -/
theorem advance_splits_multibyte_character :
    ∃ m, run (plainInit (utf8 eAcute) typingMode 20) [plainKey] = some m
      ∧ m.currentIndex = 1
      ∧ m.displayBuffer = [195]
      ∧ ∀ k : Nat, m.displayBuffer ≠ utf8 (eAcute.take k) := by
  refine ⟨_, rfl, rfl, rfl, fun k => ?_⟩
  cases k with
  | zero => decide
  | succ n =>
    have : eAcute.take (n + 1) = eAcute := by simp [eAcute]
    rw [this]
    decide

/-! ## The frame and the frame effects of `Update` -/

/-- C13: when the revealed text tokenises, the frame of `View` is the progress view, the
rendered help text, 4 line feeds, then for each retained line in order 3 tabs, the line and
a line feed, then 2 line feeds; the retained lines are those of the highlighted text, to
which the cursor glyph is appended before the split exactly when `cursorVisible` holds. -/
theorem View_frame_composition {X : Libs} (m : model X) (iterator : X.Iterator)
    (hok : X.Tokenise m.lexer m.displayBuffer = .ok iterator) :
    m.View
      = X.ProgressView m.progress ++ X.Render helpText
        ++ (([10, 10, 10, 10] : GoString)
          ++ ((visibleLines (maxVisibleLines m.mode)
                (splitLines (X.Format m.formatter m.style iterator
                  ++ (if m.cursorVisible = true then ([226, 150, 136] : GoString)
                      else [])))).map
              fun line => ([9, 9, 9] : GoString) ++ line ++ [10]).flatten
          ++ [10, 10]) := by
  rw [View_eq, hok]
  cases hv : m.cursorVisible <;>
    simp [padLines, composedLines, tabDown, tabIn, bottomPadding, cursor, hv,
      List.replicate]

theorem View_frame_composition_witness :
    plainLibs.Tokenise (plainRevealed [97, 10, 98] typingMode 20).lexer
        (plainRevealed [97, 10, 98] typingMode 20).displayBuffer = .ok ([97, 10, 98] : GoString)
      ∧ (plainRevealed [97, 10, 98] typingMode 20).View
        = plainLibs.ProgressView (plainRevealed [97, 10, 98] typingMode 20).progress
          ++ plainLibs.Render helpText
          ++ (([10, 10, 10, 10] : GoString)
            ++ ((visibleLines (maxVisibleLines (plainRevealed [97, 10, 98] typingMode 20).mode)
                  (splitLines (plainLibs.Format
                      (plainRevealed [97, 10, 98] typingMode 20).formatter
                      (plainRevealed [97, 10, 98] typingMode 20).style
                      ([97, 10, 98] : GoString)
                    ++ (if (plainRevealed [97, 10, 98] typingMode 20).cursorVisible = true
                        then ([226, 150, 136] : GoString) else [])))).map
                fun line => ([9, 9, 9] : GoString) ++ line ++ [10]).flatten
            ++ [10, 10]) :=
  ⟨rfl,
    View_frame_composition (plainRevealed [97, 10, 98] typingMode 20)
      ([97, 10, 98] : GoString) rfl⟩

/-- C14: when tokenising the revealed text fails with the error `err`, `View` returns, in
every mode, the bytes of `"Error: "` followed by the rendering of `err` and nothing else.
`View` maps a model to a frame and has no model among its results, so `currentIndex`,
`displayBuffer` and `done` are as before the frame. -/
theorem View_tokenise_error {X : Libs} (m : model X) (err : GoString)
    (herr : X.Tokenise m.lexer m.displayBuffer = .error err) :
    m.View = ([69, 114, 114, 111, 114, 58, 32] : GoString) ++ err := by
  rw [View_eq, herr]
  rfl

theorem View_tokenise_error_witness :
    rejectLibs.Tokenise (rejectInit [97] typingMode 20).lexer
        (rejectInit [97] typingMode 20).displayBuffer = .error ([98, 97, 100] : GoString)
      ∧ (rejectInit [97] typingMode 20).View
        = ([69, 114, 114, 111, 114, 58, 32] : GoString) ++ [98, 97, 100] :=
  ⟨rfl, View_tokenise_error (rejectInit [97] typingMode 20) [98, 97, 100] rfl⟩

/-- C15: for every model and every event, a model returned by `Update` has the
`content`, `mode` and `user_speed` of the input model; and `Update` does return from
every model with an index that is not negative and a speed that is not zero, hence from
every state of a session. -/
theorem Update_keeps_configuration {X : Libs} (m : model X) (e : Msg X) :
    (∀ m' c, m.Update e = some (m', c) →
        m'.content = m.content ∧ m'.mode = m.mode ∧ m'.user_speed = m.user_speed)
      ∧ (0 ≤ m.currentIndex → m.user_speed ≠ 0 → ∃ m' c, m.Update e = some (m', c)) :=
  ⟨fun m' c h => Update_frame m e m' c h, fun h0 hs => Update_total m e h0 hs⟩

theorem Update_keeps_configuration_witness :
    ∃ m' c, (plainInit [97, 98] displayMode 20).Update plainTick = some (m', c)
      ∧ m'.content = [97, 98] ∧ m'.mode = displayMode ∧ m'.user_speed = 20 := by
  obtain ⟨hkeep, hret⟩ :=
    Update_keeps_configuration (plainInit [97, 98] displayMode 20) plainTick
  obtain ⟨m', c, h⟩ := hret (by decide) (by decide)
  exact ⟨m', c, h, hkeep m' c h⟩

/-- C16: on a cursor tick and on a progress frame message `Update` returns, from every
model, a model with the `currentIndex`, the `displayBuffer` and the `done` of the input. -/
theorem cursorTick_frameMsg_keep_reveal_state {X : Libs} (m : model X) (f : X.FrameMsg) :
    (∃ m' c, m.Update .cursorTick = some (m', c) ∧ m'.currentIndex = m.currentIndex
        ∧ m'.displayBuffer = m.displayBuffer ∧ m'.done = m.done)
      ∧ (∃ m' c, m.Update (.FrameMsg f) = some (m', c) ∧ m'.currentIndex = m.currentIndex
        ∧ m'.displayBuffer = m.displayBuffer ∧ m'.done = m.done) :=
  ⟨⟨_, _, rfl, rfl, rfl, rfl⟩, ⟨_, _, rfl, rfl, rfl, rfl⟩⟩

/-! ## Reads of the content and the progress target -/

/-- C17: from a model with `currentIndex ≥ 0`, empty content included, the only panic
of `Update` is the division by a zero speed in `tickCmd`, never the read of the content;
below `len(content)` the length is positive and the read `content[currentIndex]` is in
range; at or above `len(content)` a key press or a tick returns the input model, possibly
with `done` set, without a read and without a progress fraction; and on empty content a
pacing event of the mode only sets `done`. -/
theorem Update_reads_in_range {X : Libs} (m : model X) (h0 : 0 ≤ m.currentIndex) :
    (∀ e, m.Update e = none → m.user_speed = 0)
      ∧ (m.currentIndex < m.content.length →
          0 < m.content.length
            ∧ ∃ b, index m.content m.currentIndex = some b
              ∧ m.advance = some { m with displayBuffer := m.displayBuffer ++ [b]
                                          currentIndex := m.currentIndex + 1 })
      ∧ ((m.content.length : Int) ≤ m.currentIndex →
          (∀ k, m.Update (.KeyMsg k) = some (m, .Quit)
              ∨ m.Update (.KeyMsg k) = some (m, .nil)
              ∨ m.Update (.KeyMsg k) = some ({ m with done := true }, .nil))
            ∧ (m.Update .tickMsg = some (m, .nil)
              ∨ m.Update .tickMsg = some ({ m with done := true }, .nil)))
      ∧ (m.content = [] → ∀ e, pacing m.mode e = true →
          m.Update e = some ({ m with done := true }, .nil)) := by
  refine ⟨?_, ?_, ?_, ?_⟩
  · intro e hnone
    by_contra hs
    obtain ⟨m', c, h⟩ := Update_total m e h0 hs
    rw [h] at hnone
    exact absurd hnone (by simp)
  · intro hlt
    obtain ⟨b, hb, -⟩ := index_of_lt m.content m.currentIndex h0 hlt
    refine ⟨by omega, b, hb, ?_⟩
    simp [model.advance, hb]
  · intro hge
    constructor
    · intro k
      by_cases hk : k = .KeyCtrlC ∨ k = .KeyEsc
      · exact Or.inl (Update_exit m k hk)
      · by_cases hm : m.mode = typingMode
        · exact Or.inr (Or.inr (Update_key_ge m k hk hm hge))
        · exact Or.inr (Or.inl (Update_key_display m k hk hm))
    · by_cases hm : m.mode = typingMode
      · exact Or.inl (Update_tick_typing m hm)
      · exact Or.inr (Update_tick_ge m hm hge)
  · intro hempty e hp
    have hge : (m.content.length : Int) ≤ m.currentIndex := by
      rw [hempty]
      simpa using h0
    cases e with
    | KeyMsg k =>
      have hp' : m.mode = typingMode ∧ k.isExit = false := by simpa [pacing] using hp
      have hk : ¬ (k = .KeyCtrlC ∨ k = .KeyEsc) := by
        rintro (rfl | rfl) <;> simp [KeyType.isExit] at hp'
      exact Update_key_ge m k hk hp'.1 hge
    | tickMsg =>
      have hp' : m.mode = displayMode := by simpa [pacing] using hp
      have hne : m.mode ≠ typingMode := by rw [hp']; decide
      exact Update_tick_ge m hne hge
    | cursorTick => simp [pacing] at hp
    | FrameMsg f => simp [pacing] at hp
    | other => simp [pacing] at hp

theorem Update_reads_in_range_witness :
    0 ≤ (plainInit [] displayMode 20).currentIndex
      ∧ (plainInit [] displayMode 20).Update plainTick
        = some ({ plainInit [] displayMode 20 with done := true }, .nil) :=
  ⟨by decide,
    (Update_reads_in_range (plainInit [] displayMode 20) (by decide)).2.2.2 rfl plainTick
      rfl⟩

/-- The operands of the quotient `float64(m.currentIndex) / float64(len(m.content))` of an
advance are the new index and the length, both integers; as a rational their quotient is
in `(0, 1]`, above the quotient of the index before, and 1 exactly at the last byte. -/
theorem advanced_fraction_operands {X : Libs} (m : model X) (b : Byte)
    (h0 : 0 ≤ m.currentIndex) (hlt : m.currentIndex < m.content.length) :
    (m.advanced b).progress
        = (X.SetPercent m.progress (m.advanced b).currentIndex m.content.length).1
      ∧ 0 < ((m.advanced b).currentIndex : ℚ) / (m.content.length : ℚ)
      ∧ ((m.advanced b).currentIndex : ℚ) / (m.content.length : ℚ) ≤ 1
      ∧ (m.currentIndex : ℚ) / (m.content.length : ℚ)
          < ((m.advanced b).currentIndex : ℚ) / (m.content.length : ℚ)
      ∧ (((m.advanced b).currentIndex : ℚ) / (m.content.length : ℚ) = 1
          ↔ (m.advanced b).currentIndex = m.content.length) := by
  have hlen : (0 : ℚ) < (m.content.length : ℚ) := by
    have : (0 : Int) < m.content.length := by omega
    exact_mod_cast this
  have hidx : (m.advanced b).currentIndex = m.currentIndex + 1 := rfl
  have hle : ((m.currentIndex + 1 : Int) : ℚ) ≤ (m.content.length : ℚ) := by
    have : m.currentIndex + 1 ≤ (m.content.length : Int) := by omega
    exact_mod_cast this
  have hpos : (0 : ℚ) < ((m.currentIndex + 1 : Int) : ℚ) := by
    have : (0 : Int) < m.currentIndex + 1 := by omega
    exact_mod_cast this
  rw [hidx]
  refine ⟨rfl, div_pos hpos hlen, (div_le_one hlen).mpr hle, ?_, ?_⟩
  · rw [div_lt_div_iff_of_pos_right hlen]
    push_cast
    linarith
  · rw [div_eq_one_iff_eq hlen.ne']
    constructor
    · intro h
      exact_mod_cast h
    · intro h
      exact_mod_cast h

end Codeflow
